import Mathlib

/-!
Shallow embedding of the signal-processing core of the DigiCom repository
(notebook `DCpro3.ipynb`): text/bit codec, Hamming(7,4) encoder/decoder,
BPSK/QPSK/16-QAM modulators and demodulators, and the AWGN channel model.

Conventions of the embedding:
* a Python bit (the ints 0/1 flowing through the pipeline) is a `Bool`;
* a text string is the list of its characters' code points (`List Nat`),
  matching Python's `ord`/`chr` on arbitrary Unicode code points;
* modulated symbols are exact: BPSK symbols are `Int` (the code produces
  exactly ±1.0), QPSK/16-QAM symbols are `Int × Int` pairs (real, imaginary;
  the code produces exactly ±1 and ±3 components);
* the channel works over `ℝ`; the Gaussian draws of `np.random.randn` are
  an explicit input `ℕ → ℝ` (one stream per real component), so the
  deterministic scaling of the code is captured while the distribution of
  the draws stays outside the embedding;
* `hamming_decode` in the notebook mutates its numpy argument through a
  slice view (`block = encoded_bits[i:i+7]; block[error_pos-1] ^= 1`); the
  embedding splits the call into its return value (`hamming_decode`) and
  the state of the argument array after the call
  (`hamming_decode_arg_after`).
-/

/-! ### Bit codec (`text_to_bits`, `bits_to_text`) -/

/-- Little-endian binary digits of `n`, empty for `0`; fuel-structured so the
kernel can evaluate it (`fuel ≥ n` suffices, and `bits_le` passes `n` itself). -/
def bits_le_fuel : Nat → Nat → List Bool
  | 0, _ => []
  | fuel + 1, n => if n = 0 then [] else decide (n % 2 = 1) :: bits_le_fuel fuel (n / 2)

def bits_le (n : Nat) : List Bool := bits_le_fuel n n

/-- Python's `format(n, '08b')`: big-endian binary digits of `n`, left-padded
with zeros to a minimum width of 8 (wider when `n ≥ 256`). -/
def format08b (n : Nat) : List Bool :=
  let raw := if n = 0 then [false] else (bits_le n).reverse
  List.replicate (8 - raw.length) false ++ raw

/-- Source `text_to_bits`: `[int(b) for char in text for b in format(ord(char), '08b')]`. -/
def text_to_bits (text : List Nat) : List Bool :=
  (text.map format08b).flatten

/-- Big-endian interpretation of a bit list as an unsigned integer:
`int(''.join(str(int(b)) for b in byte), 2)`. -/
def bits_to_natBE (bits : List Bool) : Nat :=
  bits.foldl (fun a b => 2 * a + (if b then 1 else 0)) 0

/-- Source `bits_to_text`: truncates to a multiple of 8 bits, groups into bytes in
order, and maps each byte to the code point `chr(int(byte, 2))`. -/
def bits_to_text : List Bool → List Nat
  | b1 :: b2 :: b3 :: b4 :: b5 :: b6 :: b7 :: b8 :: rest =>
      bits_to_natBE [b1, b2, b3, b4, b5, b6, b7, b8] :: bits_to_text rest
  | _ => []

/-! ### Hamming(7,4) (`hamming_encode`, `hamming_decode`) -/

/-- One encoded block: parities `p1 = d1^d2^d4`, `p2 = d1^d3^d4`,
`p3 = d2^d3^d4`, emitted as `[p1, p2, d1, p3, d2, d3, d4]`. -/
def enc_block (d1 d2 d3 d4 : Bool) : List Bool :=
  [xor (xor d1 d2) d4, xor (xor d1 d3) d4, d1, xor (xor d2 d3) d4, d2, d3, d4]

/-- Source `hamming_encode`: 4-bit groups, the final short group zero-padded, each
group emitted as its 7-bit block. -/
def hamming_encode : List Bool → List Bool
  | [] => []
  | [d1] => enc_block d1 false false false
  | [d1, d2] => enc_block d1 d2 false false
  | [d1, d2, d3] => enc_block d1 d2 d3 false
  | d1 :: d2 :: d3 :: d4 :: rest => enc_block d1 d2 d3 d4 ++ hamming_encode rest

/-- Syndrome value `s1 + s2*2 + s3*4` of a 7-bit block
`[p1, p2, d1, p3, d2, d3, d4]` (the code's `error_pos`). -/
def error_pos_of (block : List Bool) : Nat :=
  let p1 := block.getD 0 false
  let p2 := block.getD 1 false
  let d1 := block.getD 2 false
  let p3 := block.getD 3 false
  let d2 := block.getD 4 false
  let d3 := block.getD 5 false
  let d4 := block.getD 6 false
  let s1 := xor (xor (xor p1 d1) d2) d4
  let s2 := xor (xor (xor p2 d1) d3) d4
  let s3 := xor (xor (xor p3 d2) d3) d4
  (if s1 then 1 else 0) + (if s2 then 1 else 0) * 2 + (if s3 then 1 else 0) * 4

/-- Python `block[n] ^= 1`: flip the bit at (0-based) index `n`. -/
def flipNth : List Bool → Nat → List Bool
  | [], _ => []
  | b :: rest, 0 => (!b) :: rest
  | b :: rest, n + 1 => b :: flipNth rest n

/-- The per-block correction of `hamming_decode`: if the syndrome is nonzero
(and at most 7, which it always is) flip the bit it points at. -/
def corrected_block (p1 p2 d1 p3 d2 d3 d4 : Bool) : List Bool :=
  let block := [p1, p2, d1, p3, d2, d3, d4]
  let error_pos := error_pos_of block
  if error_pos ≠ 0 ∧ error_pos ≤ 7 then flipNth block (error_pos - 1) else block

/-- Source `hamming_decode` (return value): per full 7-bit block, correct by the
syndrome and emit the data bits at block positions 2, 4, 5, 6; a trailing
partial block is skipped. -/
def hamming_decode : List Bool → List Bool
  | p1 :: p2 :: d1 :: p3 :: d2 :: d3 :: d4 :: rest =>
      let block := corrected_block p1 p2 d1 p3 d2 d3 d4
      [block.getD 2 false, block.getD 4 false, block.getD 5 false, block.getD 6 false]
        ++ hamming_decode rest
  | _ => []

/-- The state of `hamming_decode`'s argument array after the call: each full
7-bit block is replaced by its syndrome-corrected version (the code writes
through a numpy slice view), the trailing partial block is untouched. -/
def hamming_decode_arg_after : List Bool → List Bool
  | p1 :: p2 :: d1 :: p3 :: d2 :: d3 :: d4 :: rest =>
      corrected_block p1 p2 d1 p3 d2 d3 d4 ++ hamming_decode_arg_after rest
  | short => short

/-- The encoder's partition of the data bits into 4-bit groups, the final
short group zero-padded (`d = data_bits[i:i+4]; while len(d) < 4: append 0`). -/
def chunk4 : List Bool → List (Bool × Bool × Bool × Bool)
  | [] => []
  | [d1] => [(d1, false, false, false)]
  | [d1, d2] => [(d1, d2, false, false)]
  | [d1, d2, d3] => [(d1, d2, d3, false)]
  | d1 :: d2 :: d3 :: d4 :: rest => (d1, d2, d3, d4) :: chunk4 rest

/-! ### Modulation / demodulation -/

/-- Source `bpsk_modulate`: bit `b ↦ 2*b - 1` (a real symbol, exactly ±1). -/
def bpsk_modulate (bits : List Bool) : List Int :=
  bits.map fun b => 2 * (if b then 1 else 0) - 1

/-- Source `bpsk_demodulate`: symbol `s ↦ 1` if `s.real ≥ 0` else `0`. -/
def bpsk_demodulate (signal : List Int) : List Bool :=
  signal.map fun s => decide (0 ≤ s)

/-- One QPSK symbol `I + jQ` with `I = +1` if `b1 = 1` else `-1`, likewise `Q`
from `b2`. -/
def qpsk_symbol (b1 b2 : Bool) : Int × Int :=
  ((if b1 then 1 else -1), (if b2 then 1 else -1))

/-- Source `qpsk_modulate`: bits two at a time (an odd-length input zero-padded by one
bit), each pair mapped to a symbol. -/
def qpsk_modulate : List Bool → List (Int × Int)
  | [] => []
  | [b1] => [qpsk_symbol b1 false]
  | b1 :: b2 :: rest => qpsk_symbol b1 b2 :: qpsk_modulate rest

/-- Source `qpsk_demodulate`: per symbol, `1 if real ≥ 0 else 0` then
`1 if imag ≥ 0 else 0`. -/
def qpsk_demodulate : List (Int × Int) → List Bool
  | [] => []
  | sym :: rest => decide (0 ≤ sym.1) :: decide (0 ≤ sym.2) :: qpsk_demodulate rest

/-- The 16-QAM 2-bit Gray mapping `{(0,0) ↦ -3, (0,1) ↦ -1, (1,1) ↦ +1, (1,0) ↦ +3}`. -/
def qam16_map : Bool → Bool → Int
  | false, false => -3
  | false, true => -1
  | true, true => 1
  | true, false => 3

/-- Source `qam16_modulate`: bits four at a time (input zero-padded to a multiple of
4), `(b1,b2)` mapped to the in-phase component and `(b3,b4)` to the quadrature
component. -/
def qam16_modulate : List Bool → List (Int × Int)
  | [] => []
  | [b1] => [(qam16_map b1 false, qam16_map false false)]
  | [b1, b2] => [(qam16_map b1 b2, qam16_map false false)]
  | [b1, b2, b3] => [(qam16_map b1 b2, qam16_map b3 false)]
  | b1 :: b2 :: b3 :: b4 :: rest =>
      (qam16_map b1 b2, qam16_map b3 b4) :: qam16_modulate rest

/-- Source `qam16_demodulate`: per symbol and per axis, a sign bit `1 if value > 0
else 0` then a magnitude bit `1 if |value| < 2 else 0`, I axis first. -/
def qam16_demodulate : List (Int × Int) → List Bool
  | [] => []
  | sym :: rest =>
      decide (0 < sym.1) :: decide (|sym.1| < 2) ::
      decide (0 < sym.2) :: decide (|sym.2| < 2) :: qam16_demodulate rest

/-! ### AWGN channel (`add_awgn_noise`) -/

/-- Python `np.mean(np.abs(signal) ** 2)` for a real-valued signal. -/
noncomputable def signal_power_real (signal : List ℝ) : ℝ :=
  (signal.map fun x => |x| ^ 2).sum / signal.length

/-- Python `np.mean(np.abs(signal) ** 2)` for a complex signal given as
(real, imaginary) pairs; `np.abs` is the complex magnitude. -/
noncomputable def signal_power_complex (signal : List (ℝ × ℝ)) : ℝ :=
  (signal.map fun z => Real.sqrt (z.1 ^ 2 + z.2 ^ 2) ^ 2).sum / signal.length

/-- Source `noise_power = signal_power / (2 * bits_per_symbol * 10 ** (EbN0_dB / 10))`
for a real-valued signal. -/
noncomputable def noise_power_real (signal : List ℝ) (EbN0_dB bits_per_symbol : ℝ) : ℝ :=
  signal_power_real signal / (2 * bits_per_symbol * (10 : ℝ) ^ (EbN0_dB / 10))

/-- Source `noise_power` for a complex signal. -/
noncomputable def noise_power_complex (signal : List (ℝ × ℝ)) (EbN0_dB bits_per_symbol : ℝ) : ℝ :=
  signal_power_complex signal / (2 * bits_per_symbol * (10 : ℝ) ^ (EbN0_dB / 10))

/-- Python `signal + std * randn(*signal.shape)` elementwise, the draw at index `i`
being `randn (start + i)`. -/
def awgn_map_real (std : ℝ) (randn : ℕ → ℝ) : ℕ → List ℝ → List ℝ
  | _, [] => []
  | i, x :: rest => (x + std * randn i) :: awgn_map_real std randn (i + 1) rest

/-- Python `signal + std * (randn(...) + 1j * randn(...))` elementwise, with one
independent draw stream per component. -/
def awgn_map_complex (std : ℝ) (randn_re randn_im : ℕ → ℝ) :
    ℕ → List (ℝ × ℝ) → List (ℝ × ℝ)
  | _, [] => []
  | i, z :: rest =>
      (z.1 + std * randn_re i, z.2 + std * randn_im i) ::
        awgn_map_complex std randn_re randn_im (i + 1) rest

/-- Source `add_awgn_noise` on a real-valued signal: noise standard deviation
`sqrt(2 * noise_power)`, one Gaussian draw per sample. -/
noncomputable def add_awgn_noise_real (signal : List ℝ) (EbN0_dB bits_per_symbol : ℝ)
    (randn : ℕ → ℝ) : List ℝ :=
  awgn_map_real (Real.sqrt (2 * noise_power_real signal EbN0_dB bits_per_symbol)) randn 0 signal

/-- Source `add_awgn_noise` on a complex signal: noise standard deviation
`sqrt(noise_power)` on each of the real and imaginary components. -/
noncomputable def add_awgn_noise_complex (signal : List (ℝ × ℝ)) (EbN0_dB bits_per_symbol : ℝ)
    (randn_re randn_im : ℕ → ℝ) : List (ℝ × ℝ) :=
  awgn_map_complex (Real.sqrt (noise_power_complex signal EbN0_dB bits_per_symbol))
    randn_re randn_im 0 signal

/-! ### Helper lemmas -/

set_option maxRecDepth 4000 in
/-- For code points below 256, `format(c, '08b')` is exactly 8 bits and
re-reading them big-endian gives back `c`. -/
theorem format08b_byte : ∀ c, c < 256 →
    (format08b c).length = 8 ∧ bits_to_natBE (format08b c) = c := by decide

theorem length_eight_explicit (l : List Bool) (h : l.length = 8) :
    ∃ b1 b2 b3 b4 b5 b6 b7 b8, l = [b1, b2, b3, b4, b5, b6, b7, b8] := by
  rcases l with _ | ⟨b1, _ | ⟨b2, _ | ⟨b3, _ | ⟨b4, _ | ⟨b5, _ | ⟨b6, _ |
    ⟨b7, _ | ⟨b8, _ | ⟨b9, t⟩⟩⟩⟩⟩⟩⟩⟩⟩ <;> simp at h
  exact ⟨b1, b2, b3, b4, b5, b6, b7, b8, rfl⟩

theorem text_to_bits_cons (c : Nat) (T : List Nat) :
    text_to_bits (c :: T) = format08b c ++ text_to_bits T := rfl

theorem text_to_bits_length (T : List Nat) (h : ∀ c ∈ T, c < 256) :
    (text_to_bits T).length = 8 * T.length := by
  induction T with
  | nil => rfl
  | cons c T ih =>
    have hc := (format08b_byte c (h c (by simp))).1
    have hT : ∀ x ∈ T, x < 256 := fun x hx => h x (by simp [hx])
    rw [text_to_bits_cons]
    simp [hc, ih hT]
    ring

theorem bits_to_text_text_to_bits (T : List Nat) (h : ∀ c ∈ T, c < 256) :
    bits_to_text (text_to_bits T) = T := by
  induction T with
  | nil => rfl
  | cons c T ih =>
    have hc := h c (by simp)
    have hT : ∀ x ∈ T, x < 256 := fun x hx => h x (by simp [hx])
    obtain ⟨hlen, hval⟩ := format08b_byte c hc
    obtain ⟨b1, b2, b3, b4, b5, b6, b7, b8, hfm⟩ := length_eight_explicit _ hlen
    rw [text_to_bits_cons, hfm]
    show bits_to_natBE [b1, b2, b3, b4, b5, b6, b7, b8] :: bits_to_text (text_to_bits T)
      = c :: T
    rw [← hfm, hval, ih hT]

theorem hamming_roundtrip (bs : List Bool) (h : bs.length % 4 = 0) :
    hamming_decode (hamming_encode bs) = bs := by
  induction bs using hamming_encode.induct with
  | case1 => rfl
  | case2 d1 => simp at h
  | case3 d1 d2 => simp at h
  | case4 d1 d2 d3 => simp at h
  | case5 d1 d2 d3 d4 rest ih =>
    have h' : rest.length % 4 = 0 := by simp at h; omega
    cases d1 <;> cases d2 <;> cases d3 <;> cases d4 <;>
      simp [hamming_encode, enc_block, hamming_decode, corrected_block,
        error_pos_of, flipNth, List.getD, ih h']

theorem bpsk_identity (bits : List Bool) :
    bpsk_demodulate (bpsk_modulate bits) = bits := by
  induction bits with
  | nil => rfl
  | cons b t ih => cases b <;> simp_all [bpsk_modulate, bpsk_demodulate]

theorem qpsk_identity (bits : List Bool) (h : bits.length % 2 = 0) :
    qpsk_demodulate (qpsk_modulate bits) = bits := by
  induction bits using qpsk_modulate.induct with
  | case1 => rfl
  | case2 b1 => simp at h
  | case3 b1 b2 rest ih =>
    have h' : rest.length % 2 = 0 := by simp at h; omega
    cases b1 <;> cases b2 <;>
      simp [qpsk_modulate, qpsk_demodulate, qpsk_symbol, ih h']

theorem qam16_identity (bits : List Bool) (h : bits.length % 4 = 0) :
    qam16_demodulate (qam16_modulate bits) = bits := by
  induction bits using qam16_modulate.induct with
  | case1 => rfl
  | case2 b1 => simp at h
  | case3 b1 b2 => simp at h
  | case4 b1 b2 b3 => simp at h
  | case5 b1 b2 b3 b4 rest ih =>
    have h' : rest.length % 4 = 0 := by simp at h; omega
    cases b1 <;> cases b2 <;> cases b3 <;> cases b4 <;>
      simp [qam16_modulate, qam16_demodulate, qam16_map, ih h']

theorem awgn_map_real_length (std : ℝ) (randn : ℕ → ℝ) :
    ∀ (j : ℕ) (s : List ℝ), (awgn_map_real std randn j s).length = s.length := by
  intro j s
  induction s generalizing j with
  | nil => rfl
  | cons x t ih => simp [awgn_map_real, ih]

theorem awgn_map_real_getD (std : ℝ) (randn : ℕ → ℝ) :
    ∀ (s : List ℝ) (j i : ℕ), i < s.length →
      (awgn_map_real std randn j s).getD i 0 = s.getD i 0 + std * randn (j + i) := by
  intro s
  induction s with
  | nil => intro j i hi; simp at hi
  | cons x t ih =>
    intro j i hi
    cases i with
    | zero => simp [awgn_map_real]
    | succ i =>
      have := ih (j + 1) i (by simp at hi; omega)
      simp only [awgn_map_real, List.getD_cons_succ]
      rw [this]
      ring_nf

theorem awgn_map_complex_length (std : ℝ) (randn_re randn_im : ℕ → ℝ) :
    ∀ (j : ℕ) (s : List (ℝ × ℝ)),
      (awgn_map_complex std randn_re randn_im j s).length = s.length := by
  intro j s
  induction s generalizing j with
  | nil => rfl
  | cons z t ih => simp [awgn_map_complex, ih]

theorem awgn_map_complex_getD (std : ℝ) (randn_re randn_im : ℕ → ℝ) :
    ∀ (s : List (ℝ × ℝ)) (j i : ℕ), i < s.length →
      (awgn_map_complex std randn_re randn_im j s).getD i (0, 0) =
        ((s.getD i (0, 0)).1 + std * randn_re (j + i),
         (s.getD i (0, 0)).2 + std * randn_im (j + i)) := by
  intro s
  induction s with
  | nil => intro j i hi; simp at hi
  | cons z t ih =>
    intro j i hi
    cases i with
    | zero => simp [awgn_map_complex]
    | succ i =>
      have := ih (j + 1) i (by simp at hi; omega)
      simp only [awgn_map_complex, List.getD_cons_succ]
      rw [this]
      ring_nf

/-- Python `np.abs(z) ** 2` is the sum of squared components: the complex signal power
is the mean of `re² + im²`. -/
theorem signal_power_complex_eq (signal : List (ℝ × ℝ)) :
    signal_power_complex signal =
      (signal.map fun z => z.1 ^ 2 + z.2 ^ 2).sum / signal.length := by
  unfold signal_power_complex
  have h : ∀ z : ℝ × ℝ, Real.sqrt (z.1 ^ 2 + z.2 ^ 2) ^ 2 = z.1 ^ 2 + z.2 ^ 2 :=
    fun z => Real.sq_sqrt (by positivity)
  simp only [h]

/-! ### Claim theorems -/

/-- C1 (amended): for every text string whose characters' code points are all
below 256, the no-noise pipeline
`bits_to_text (hamming_decode (hamming_encode (text_to_bits T)))` reproduces
`T` exactly. -/
theorem text_roundtrip_no_noise (T : List Nat) (h : ∀ c ∈ T, c < 256) :
    bits_to_text (hamming_decode (hamming_encode (text_to_bits T))) = T := by
  have hlen : (text_to_bits T).length % 4 = 0 := by
    rw [text_to_bits_length T h]; omega
  rw [hamming_roundtrip _ hlen, bits_to_text_text_to_bits T h]

/-- C1 witness: the round trip at the concrete string "HI" (code points
72, 73). -/
theorem text_roundtrip_no_noise_witness :
    (∀ c ∈ [72, 73], c < 256) ∧
      bits_to_text (hamming_decode (hamming_encode (text_to_bits [72, 73]))) = [72, 73] :=
  ⟨by decide, text_roundtrip_no_noise [72, 73] (by decide)⟩

/-- C1 counterexample: the claim fails as stated for arbitrary text.  The
character with code point 256 is emitted by `format(ord(c), '08b')` as 9 bits,
and the pipeline recovers code point 128 instead of 256. -/
theorem text_roundtrip_fails_at_256 :
    bits_to_text (hamming_decode (hamming_encode (text_to_bits [256]))) ≠ [256] := by
  decide

/-- C2: flipping any single bit of any encoded 7-bit block is corrected:
`hamming_decode` returns the original data nibble, the syndrome equals the
1-based index of the flipped bit, and the syndrome of an unflipped block
is 0 (and decoding it also returns the nibble). -/
theorem hamming_single_error_correction :
    ∀ (d1 d2 d3 d4 : Bool) (k : Fin 7),
      hamming_decode (flipNth (enc_block d1 d2 d3 d4) k.val) = [d1, d2, d3, d4] ∧
      error_pos_of (flipNth (enc_block d1 d2 d3 d4) k.val) = k.val + 1 ∧
      error_pos_of (enc_block d1 d2 d3 d4) = 0 ∧
      hamming_decode (enc_block d1 d2 d3 d4) = [d1, d2, d3, d4] := by
  decide

/-- C3: at zero noise each scheme's demodulator inverts its modulator: for
BPSK on every bit sequence, for QPSK on sequences of even length, and for
16-QAM on sequences whose length is a multiple of 4. -/
theorem mod_demod_identity :
    (∀ bits : List Bool, bpsk_demodulate (bpsk_modulate bits) = bits) ∧
    (∀ bits : List Bool, bits.length % 2 = 0 →
      qpsk_demodulate (qpsk_modulate bits) = bits) ∧
    (∀ bits : List Bool, bits.length % 4 = 0 →
      qam16_demodulate (qam16_modulate bits) = bits) :=
  ⟨bpsk_identity, qpsk_identity, qam16_identity⟩

/-- C3 witness: the three identities at concrete bit sequences of the
respective aligned lengths. -/
theorem mod_demod_identity_witness :
    bpsk_demodulate (bpsk_modulate [true]) = [true] ∧
    ([true, false] : List Bool).length % 2 = 0 ∧
    qpsk_demodulate (qpsk_modulate [true, false]) = [true, false] ∧
    ([true, false, true, true] : List Bool).length % 4 = 0 ∧
    qam16_demodulate (qam16_modulate [true, false, true, true]) =
      [true, false, true, true] :=
  ⟨mod_demod_identity.1 [true], by decide,
    mod_demod_identity.2.1 [true, false] (by decide), by decide,
    mod_demod_identity.2.2 [true, false, true, true] (by decide)⟩

/-- C4: `hamming_encode` partitions its input into zero-padded 4-bit groups
(`chunk4`), emits per group the block `[p1, p2, d1, p3, d2, d3, d4]` with
`p1 = d1^d2^d4`, `p2 = d1^d3^d4`, `p3 = d2^d3^d4`, and its output length is
`ceil(n/4) * 7 = ((n+3)/4) * 7`. -/
theorem hamming_encode_spec :
    (∀ bits : List Bool, (hamming_encode bits).length = ((bits.length + 3) / 4) * 7) ∧
    (∀ bits : List Bool, hamming_encode bits =
      ((chunk4 bits).map fun g =>
        [xor (xor g.1 g.2.1) g.2.2.2, xor (xor g.1 g.2.2.1) g.2.2.2, g.1,
         xor (xor g.2.1 g.2.2.1) g.2.2.2, g.2.1, g.2.2.1, g.2.2.2]).flatten) := by
  constructor
  · intro bits
    induction bits using hamming_encode.induct with
    | case1 => rfl
    | case2 d1 => simp [hamming_encode, enc_block]
    | case3 d1 d2 => simp [hamming_encode, enc_block]
    | case4 d1 d2 d3 => simp [hamming_encode, enc_block]
    | case5 d1 d2 d3 d4 rest ih =>
      simp [hamming_encode, enc_block, ih]
      omega
  · intro bits
    induction bits using hamming_encode.induct with
    | case1 => rfl
    | case2 d1 => simp [hamming_encode, chunk4, enc_block]
    | case3 d1 d2 => simp [hamming_encode, chunk4, enc_block]
    | case4 d1 d2 d3 => simp [hamming_encode, chunk4, enc_block]
    | case5 d1 d2 d3 d4 rest ih =>
      simp [hamming_encode, chunk4, enc_block, ih]

theorem length_ge_seven_explicit (l : List Bool) (h : 7 ≤ l.length) :
    ∃ b1 b2 b3 b4 b5 b6 b7 rest, l = b1 :: b2 :: b3 :: b4 :: b5 :: b6 :: b7 :: rest := by
  rcases l with _ | ⟨b1, _ | ⟨b2, _ | ⟨b3, _ | ⟨b4, _ | ⟨b5, _ | ⟨b6, _ |
    ⟨b7, t⟩⟩⟩⟩⟩⟩⟩ <;> simp at h
  exact ⟨b1, b2, b3, b4, b5, b6, b7, t, rfl⟩

/-- C8: `hamming_decode` decodes only the first `7 * (n / 7)` bits: its output
has length `4 * (n / 7)` and equals the decode of the input truncated to the
largest multiple of 7. -/
theorem hamming_decode_truncates (bits : List Bool) :
    (hamming_decode bits).length = 4 * (bits.length / 7) ∧
    hamming_decode bits = hamming_decode (bits.take (7 * (bits.length / 7))) := by
  induction bits using hamming_decode.induct with
  | case1 p1 p2 d1 p3 d2 d3 d4 rest ih =>
    refine ⟨?_, ?_⟩
    · have h1 := ih.1
      simp [hamming_decode]
      omega
    · have h1 : (p1 :: p2 :: d1 :: p3 :: d2 :: d3 :: d4 :: rest).length
          = rest.length + 7 := by simp
      rw [h1]
      have h2 : 7 * ((rest.length + 7) / 7) = 7 * (rest.length / 7) + 7 := by omega
      rw [h2]
      rw [show (p1 :: p2 :: d1 :: p3 :: d2 :: d3 :: d4 :: rest)
            = [p1, p2, d1, p3, d2, d3, d4] ++ rest from rfl]
      rw [List.take_append_eq_append_take]
      rw [List.take_of_length_le (by simp)]
      have h3 : 7 * (rest.length / 7) + 7 - ([p1, p2, d1, p3, d2, d3, d4] : List Bool).length
          = 7 * (rest.length / 7) := by simp
      rw [h3]
      simp only [List.cons_append, List.append_eq, List.nil_append, hamming_decode]
      rw [← ih.2]
  | case2 t hne =>
    have hl : t.length < 7 := by
      by_contra hge
      push_neg at hge
      obtain ⟨b1, b2, b3, b4, b5, b6, b7, rest, rfl⟩ := length_ge_seven_explicit t hge
      exact hne b1 b2 b3 b4 b5 b6 b7 rest rfl
    have h0 : t.length / 7 = 0 := by omega
    simp [hamming_decode, h0]

/-- C5: `add_awgn_noise` preserves the signal length and adds to each sample
`std * draw` where the standard deviation follows the spec formula: with
`noise_power = signal_power / (2 * bits_per_symbol * 10^(EbN0_dB/10))` and
`signal_power` the mean of the squared magnitudes, the real-valued branch uses
`sqrt(2 * noise_power)` per sample and the complex branch uses
`sqrt(noise_power)` independently on the real and imaginary components. -/
theorem add_awgn_noise_spec :
    (∀ (signal : List ℝ) (EbN0_dB bps : ℝ) (randn : ℕ → ℝ), signal ≠ [] →
      (add_awgn_noise_real signal EbN0_dB bps randn).length = signal.length ∧
      ∀ i, i < signal.length →
        (add_awgn_noise_real signal EbN0_dB bps randn).getD i 0 =
          signal.getD i 0 +
            Real.sqrt (2 * (((signal.map fun x => |x| ^ 2).sum / signal.length) /
              (2 * bps * (10 : ℝ) ^ (EbN0_dB / 10)))) * randn i) ∧
    (∀ (signal : List (ℝ × ℝ)) (EbN0_dB bps : ℝ) (randn_re randn_im : ℕ → ℝ),
      signal ≠ [] →
      (add_awgn_noise_complex signal EbN0_dB bps randn_re randn_im).length
        = signal.length ∧
      ∀ i, i < signal.length →
        (add_awgn_noise_complex signal EbN0_dB bps randn_re randn_im).getD i (0, 0) =
          ((signal.getD i (0, 0)).1 +
             Real.sqrt (((signal.map fun z => z.1 ^ 2 + z.2 ^ 2).sum / signal.length) /
               (2 * bps * (10 : ℝ) ^ (EbN0_dB / 10))) * randn_re i,
           (signal.getD i (0, 0)).2 +
             Real.sqrt (((signal.map fun z => z.1 ^ 2 + z.2 ^ 2).sum / signal.length) /
               (2 * bps * (10 : ℝ) ^ (EbN0_dB / 10))) * randn_im i)) := by
  constructor
  · intro signal EbN0_dB bps randn _
    constructor
    · exact awgn_map_real_length _ _ 0 signal
    · intro i hi
      have h := awgn_map_real_getD
        (Real.sqrt (2 * noise_power_real signal EbN0_dB bps)) randn signal 0 i hi
      simpa [add_awgn_noise_real, noise_power_real, signal_power_real] using h
  · intro signal EbN0_dB bps randn_re randn_im _
    constructor
    · exact awgn_map_complex_length _ _ _ 0 signal
    · intro i hi
      have h := awgn_map_complex_getD
        (Real.sqrt (noise_power_complex signal EbN0_dB bps)) randn_re randn_im signal 0 i hi
      simpa [add_awgn_noise_complex, noise_power_complex, signal_power_complex_eq] using h

/-- C5 witness: the length-preservation conclusions at a concrete one-sample
real signal and a concrete one-sample complex signal. -/
theorem add_awgn_noise_spec_witness :
    (([1] : List ℝ) ≠ [] ∧
      (add_awgn_noise_real [1] 0 1 fun _ => 0).length = ([1] : List ℝ).length) ∧
    (([(1, 0)] : List (ℝ × ℝ)) ≠ [] ∧
      (add_awgn_noise_complex [(1, 0)] 0 1 (fun _ => 0) fun _ => 0).length
        = ([(1, 0)] : List (ℝ × ℝ)).length) :=
  ⟨⟨by simp, (add_awgn_noise_spec.1 [1] 0 1 (fun _ => 0) (by simp)).1⟩,
   ⟨by simp, (add_awgn_noise_spec.2 [(1, 0)] 0 1 (fun _ => 0) (fun _ => 0) (by simp)).1⟩⟩

/-- C6: for a fixed signal with positive average power and positive
bits-per-symbol, the channel's `noise_power` is strictly decreasing in
`EbN0_dB`. -/
theorem noise_power_strict_anti (signal : List ℝ) (bps a b : ℝ)
    (hP : 0 < signal_power_real signal) (hbps : 0 < bps) (hab : a < b) :
    noise_power_real signal b bps < noise_power_real signal a bps := by
  unfold noise_power_real
  have hlt : (10 : ℝ) ^ (a / 10) < (10 : ℝ) ^ (b / 10) :=
    (Real.rpow_lt_rpow_left_iff (by norm_num)).mpr (by linarith)
  have hda : 0 < 2 * bps * (10 : ℝ) ^ (a / 10) := by
    have := Real.rpow_pos_of_pos (show (0:ℝ) < 10 by norm_num) (a / 10)
    positivity
  have hdlt : 2 * bps * (10 : ℝ) ^ (a / 10) < 2 * bps * (10 : ℝ) ^ (b / 10) :=
    mul_lt_mul_of_pos_left hlt (by positivity)
  exact div_lt_div_of_pos_left hP hda hdlt

/-- C6 witness: the strict decrease at the 2-sample signal `[1, -1]` (average
power 1), `bits_per_symbol = 1`, from 0 dB to 10 dB. -/
theorem noise_power_strict_anti_witness :
    0 < signal_power_real [1, -1] ∧ (0 : ℝ) < 1 ∧ (0 : ℝ) < 10 ∧
      noise_power_real [1, -1] 10 1 < noise_power_real [1, -1] 0 1 := by
  have hP : 0 < signal_power_real [1, -1] := by
    simp [signal_power_real]
  exact ⟨hP, by norm_num, by norm_num,
    noise_power_strict_anti [1, -1] 1 0 10 hP (by norm_num) (by norm_num)⟩

/-- C7 (amended): for every text string whose characters' code points are all
below 256, `text_to_bits` emits each character's 8-bit big-endian
representation in sequence order and its output length is 8 times the
character count. -/
theorem text_to_bits_spec (T : List Nat) (h : ∀ c ∈ T, c < 256) :
    text_to_bits T = (T.map format08b).flatten ∧
    (∀ c ∈ T, (format08b c).length = 8) ∧
    (text_to_bits T).length = 8 * T.length :=
  ⟨rfl, fun c hc => (format08b_byte c (h c hc)).1, text_to_bits_length T h⟩

/-- C7 witness: the per-character shape and length at the one-character
string "H" (code point 72). -/
theorem text_to_bits_spec_witness :
    (∀ c ∈ [72], c < 256) ∧ (text_to_bits [72]).length = 8 * ([72] : List Nat).length :=
  ⟨by decide, (text_to_bits_spec [72] (by decide)).2.2⟩

/-- C7 counterexample: for the character with code point 256 the emitted
representation has 9 bits, so the unrestricted length guarantee fails. -/
theorem text_to_bits_length_fails_at_256 :
    (text_to_bits [256]).length ≠ 8 * ([256] : List Nat).length := by decide

/-- C9: every stage maps an empty input to an empty output (and, the embedding
being total, no exception is raised): the bit codec, the Hamming coder in both
directions (including the argument's final state), all three
modulator/demodulator pairs, and the AWGN channel. -/
theorem empty_input_boundary :
    text_to_bits [] = [] ∧ bits_to_text [] = [] ∧
    hamming_encode [] = [] ∧ hamming_decode [] = [] ∧
    hamming_decode_arg_after [] = [] ∧
    bpsk_modulate [] = [] ∧ bpsk_demodulate [] = [] ∧
    qpsk_modulate [] = [] ∧ qpsk_demodulate [] = [] ∧
    qam16_modulate [] = [] ∧ qam16_demodulate [] = [] ∧
    add_awgn_noise_real [] 0 1 (fun _ => 0) = [] ∧
    add_awgn_noise_complex [] 0 1 (fun _ => 0) (fun _ => 0) = [] :=
  ⟨rfl, rfl, rfl, rfl, rfl, rfl, rfl, rfl, rfl, rfl, rfl, rfl, rfl⟩

/-- C10: `hamming_decode` is not side-effect-free on its argument: there is an
input (any full 7-bit block with nonzero syndrome) whose array state after the
call differs from the state before, because the syndrome correction writes
through a slice view into the caller's array. -/
theorem hamming_decode_mutates_argument :
    ∃ bits : List Bool, hamming_decode_arg_after bits ≠ bits :=
  ⟨[false, true, true, false, false, false, false], by decide⟩
